import Mathlib

/-
Shallow embedding of the `statemachines` scheduler core
(src/statemachines/__init__.py) in Lean 4, together with proofs of the
spec's testable properties.

Modelling conventions:
 * Python objects (machines and events live in one identity space) are
   identified by natural-number ids.  Events are compared by identity,
   so a `Nat` id is a faithful key.
 * A machine's mutable attributes are split into its `state` (the bound
   method `machine.state`), its diagnostic `transitions` counter, and an
   abstract `payload` of every other instance attribute a state function
   may mutate.
 * The behaviour of a concrete object graph is packaged in an `Env`:
   the per-object state-function table (`step`), and the capability
   probes `hasattr(x, 'next_deadline')` / `hasattr(x, 'triggered')` /
   `hasattr(x, 'waiting_on')` together with the values those methods
   return.  `triggered` may read any object's payload (e.g. FlagOr
   queries its members), so it receives the whole payload store.
 * Python exceptions are modelled by explicit result variants carrying
   the message; the mutations performed before the raise are kept, as
   in Python.
 * The unbounded `while next_event == IMMEDATE_TRANSFER` loop and the
   cascade worklist loop take a fuel parameter; running out of fuel is
   the explicit `fuelOut` variant (Python would simply not terminate).
 * `dict` is modelled as an insertion-ordered association list with
   distinct keys; `dict` deletion of a missing key / `d[k]` on a
   missing key is the `keyError` variant.
-/

namespace SM

/-- Result of calling `next_deadline()`: Python is dynamically typed, so the
value is an `int` or something else (`type(deadline) != int` in `advance`). -/
inductive PyVal where
  | int (n : Int)
  | notInt
deriving DecidableEq

/-- The second component returned by a state function: the sentinel
`IMMEDATE_TRANSFER`, `None`, or an event object (by id). -/
inductive NextRet where
  | immediate
  | none
  | ev (e : Nat)
deriving DecidableEq

/-- Outcome of invoking `machine.state(now)`: a normal return
`(next_state, next_event)` or a raised exception; either way the invocation
may first have mutated the machine's other attributes (the payload). -/
inductive StepOut (σ π : Type) where
  | ret (p : π) (ns : Option σ) (ne : NextRet)
  | exc (p : π) (msg : String)
deriving DecidableEq

/-- Result of `call_state` (its return value or the propagating exception). -/
inductive CallRes where
  | ok (ne : NextRet)
  | exc (msg : String)
deriving DecidableEq

/-- Result of the immediate-transition loop inside `advance`. -/
inductive LoopRes where
  | done (ne : NextRet)
  | exc (msg : String)
  | fuelOut
deriving DecidableEq

/-- Result of `advance`. -/
inductive ARes where
  | ok
  | exc (msg : String)
  | fuelOut
deriving DecidableEq

/-- Result of `EventTracker.process_event`. -/
inductive PRes where
  | ok (l : List Nat)
  | exc (msg : String)
  | fuelOut
  | keyError
deriving DecidableEq

/-- Result of a whole fired-event iteration body. -/
inductive FRes where
  | ok
  | exc (msg : String)
  | fuelOut
  | keyError
deriving DecidableEq

/-- Observable actions of one run-loop iteration, used to state ordering
properties: a machine advancement, the two commit points, and the
per-iteration hook invocations. -/
inductive Act where
  | advanced (mid : Nat)
  | commit_adds
  | commit_deletes
  | hook (k : Nat)
deriving DecidableEq

/-- The mutable attributes of one machine object: its current state method,
its `transitions` counter, and all other instance attributes (payload). -/
structure MachState (σ π : Type) where
  state : σ
  payload : π
  transitions : Nat
deriving DecidableEq

/-- The static part of a Python object graph: the state-function table and
the capability probes with the values their methods return. -/
structure Env (σ π : Type) where
  /-- `machine.state(now)` for machine `mid` in state `s` with payload `p`. -/
  step : Nat → σ → π → Int → StepOut σ π
  /-- the designated `start` state of machine `mid` (forced by `do_adds`). -/
  start : Nat → σ
  /-- `hasattr(x, 'next_deadline')` -/
  hasND : Nat → Bool
  /-- the value `x.next_deadline()` returns at this moment -/
  nd : Nat → PyVal
  /-- `hasattr(x, 'triggered')` -/
  hasTr : Nat → Bool
  /-- `x.triggered()`, reading the current payload store -/
  triggered : Nat → (Nat → π) → Bool
  /-- `hasattr(x, 'waiting_on')` -/
  hasWO : Nat → Bool
  /-- `x.waiting_on(trigger)` (the watch list is fixed at construction) -/
  waiting_on : Nat → Nat → Bool

/- ------------------------------------------------------------------
   EventTracker: `self.events` is an insertion-ordered dict
   event-id → list of subscriber machine ids.
   ------------------------------------------------------------------ -/

/-- `d[e]` on the ordered dict (first matching key). -/
def lookupE : List (Nat × List Nat) → Nat → Option (List Nat)
  | [], _ => Option.none
  | (k, ms) :: rest, e => if k = e then some ms else lookupE rest e

/-- `EventTracker.add`: append to the list of an existing key, or insert a
new key at the end (dict insertion order). -/
def addE : List (Nat × List Nat) → Nat → Nat → List (Nat × List Nat)
  | [], e, mid => [(e, [mid])]
  | (k, ms) :: rest, e, mid =>
      if k = e then (k, ms ++ [mid]) :: rest else (k, ms) :: addE rest e mid

/-- `del d[e]` (key assumed present at most once, as in a dict). -/
def removeE : List (Nat × List Nat) → Nat → List (Nat × List Nat)
  | [], _ => []
  | (k, ms) :: rest, e => if k = e then rest else (k, ms) :: removeE rest e

/-- `machines.remove(machine)` guarded by `machine in machines`: remove the
first occurrence, no-op when absent. -/
def removeFirst : List Nat → Nat → List Nat
  | [], _ => []
  | x :: xs, m => if x = m then xs else x :: removeFirst xs m

/-- `EventTracker.delete`: one pass removing `mid` from each subscriber list
and dropping every entry whose list is empty afterwards (the Python code
collects those keys in `del_list` and deletes them after the loop, which has
the same effect on the dict). -/
def delList : List (Nat × List Nat) → Nat → List (Nat × List Nat)
  | [], _ => []
  | (k, ms) :: rest, mid =>
      let ms2 := removeFirst ms mid
      if ms2.isEmpty then delList rest mid else (k, ms2) :: delList rest mid

/-- An `EventTracker` (`self.events`). -/
structure Tracker where
  events : List (Nat × List Nat)
deriving DecidableEq

def Tracker.add (t : Tracker) (mid e : Nat) : Tracker :=
  ⟨addE t.events e mid⟩

def Tracker.delete (t : Tracker) (mid : Nat) : Tracker :=
  ⟨delList t.events mid⟩

/-- `EventTracker.dequeue`: read and delete the entry; `none` is the
`KeyError` Python would raise on an untracked event. -/
def Tracker.dequeue (t : Tracker) (e : Nat) : Option (List Nat × Tracker) :=
  match lookupE t.events e with
  | Option.none => Option.none
  | some ms => some (ms, ⟨removeE t.events e⟩)

/-- The tracker entries (event ids) whose subscriber list contains `mid`. -/
def Tracker.entriesWith (t : Tracker) (mid : Nat) : List Nat :=
  (t.events.filter (fun p => decide (mid ∈ p.2))).map Prod.fst

/-- Is `mid` subscribed to event `e` in this tracker? -/
def Tracker.subscribed (t : Tracker) (mid e : Nat) : Bool :=
  match lookupE t.events e with
  | some ms => decide (mid ∈ ms)
  | Option.none => false

/-- `AggregateTracker.search(trigger)`: the tracked aggregate events that are
`waiting_on(trigger)` and currently `triggered()` (the generator is evaluated
against the entries present when the loop starts). -/
def Tracker.searchA (t : Tracker) (env : Env σ π) (trigger : Nat)
    (ρ : Nat → π) : List Nat :=
  (t.events.map Prod.fst).filter
    (fun e => env.waiting_on e trigger && env.triggered e ρ)

/- ------------------------------------------------------------------
   Global scheduler state: the machine store, the three trackers and the
   two pending queues.
   ------------------------------------------------------------------ -/

/-- Which of the three module-level trackers an operation acts on. -/
inductive TSel where
  | time
  | flag
  | aggregate
deriving DecidableEq

structure World (σ π : Type) where
  machines : Nat → MachState σ π
  time_events : Tracker
  flag_events : Tracker
  aggregate_events : Tracker
  pending_adds : List Nat
  pending_deletes : List Nat

def World.getT : World σ π → TSel → Tracker
  | w, TSel.time => w.time_events
  | w, TSel.flag => w.flag_events
  | w, TSel.aggregate => w.aggregate_events

def World.setT : World σ π → TSel → Tracker → World σ π
  | w, TSel.time, t => { w with time_events := t }
  | w, TSel.flag, t => { w with flag_events := t }
  | w, TSel.aggregate, t => { w with aggregate_events := t }

/-- Update the machine store at one id (assignment to a machine attribute). -/
def updMach (w : World σ π) (mid : Nat) (m : MachState σ π) : World σ π :=
  { w with machines := fun i => if i = mid then m else w.machines i }

/-- The current payload store (what `triggered()` implementations read). -/
def payloads (w : World σ π) : Nat → π := fun i => (w.machines i).payload

/-- All tracker entries, over the three trackers, that `mid` subscribes to. -/
def World.entriesAll (w : World σ π) (mid : Nat) : List Nat :=
  w.time_events.entriesWith mid ++ w.flag_events.entriesWith mid ++
    w.aggregate_events.entriesWith mid

/- ------------------------------------------------------------------
   Advancement engine: call_state / advance.
   ------------------------------------------------------------------ -/

/-- `call_state(now, machine, event)`: increment `transitions`, invoke the
current state function, install the returned next state (keeping the old one
when `None` is returned, and also when the invocation raises, since the
assignment then never happens). -/
def call_state (env : Env σ π) (now : Int) (mid : Nat) (event : Option Nat)
    (m : MachState σ π) : MachState σ π × CallRes :=
  match env.step mid m.state m.payload now with
  | StepOut.exc p msg =>
      ({ state := m.state, payload := p, transitions := m.transitions + 1 },
       CallRes.exc msg)
  | StepOut.ret p ns ne =>
      ({ state := ns.getD m.state, payload := p,
         transitions := m.transitions + 1 },
       CallRes.ok ne)

/-- The machine after `k` successive `call_state` invocations. -/
def afterCalls (env : Env σ π) (now : Int) (mid : Nat) (event : Option Nat) :
    Nat → MachState σ π → MachState σ π
  | 0, m => m
  | k + 1, m =>
      afterCalls env now mid event k (call_state env now mid event m).1

/-- The `next_event = call_state(...); while next_event == IMMEDATE_TRANSFER`
loop of `advance`, with fuel; also counts the `call_state` invocations. -/
def advanceLoop (env : Env σ π) (now : Int) (mid : Nat) (event : Option Nat) :
    Nat → MachState σ π → MachState σ π × LoopRes × Nat
  | 0, m => (m, LoopRes.fuelOut, 0)
  | fuel + 1, m =>
      match call_state env now mid event m with
      | (m2, CallRes.exc msg) => (m2, LoopRes.exc msg, 1)
      | (m2, CallRes.ok NextRet.immediate) =>
          match advanceLoop env now mid event fuel m2 with
          | (m3, r, c) => (m3, r, c + 1)
      | (m2, CallRes.ok NextRet.none) => (m2, LoopRes.done NextRet.none, 1)
      | (m2, CallRes.ok (NextRet.ev e)) =>
          (m2, LoopRes.done (NextRet.ev e), 1)

/-- `if next_event is None: next_event = event`. -/
def resolveEvent : NextRet → Option Nat → Option Nat
  | NextRet.ev e, _ => some e
  | _, event => event

/-- How `advance` classifies the final event by capability probing. -/
inductive Classified where
  | toTime (e : Nat)
  | toAgg (e : Nat)
  | toFlag (e : Nat)
  | park
  | badDeadline
deriving DecidableEq

/-- The `hasattr` cascade at the end of `advance`: time events first
(validating the deadline type), then aggregate, then plain flag; an event
with neither capability subscribes the machine to nothing. -/
def classify (env : Env σ π) (eo : Option Nat) : Classified :=
  match eo with
  | Option.none => Classified.park
  | some e =>
      if env.hasND e then
        match env.nd e with
        | PyVal.int _ => Classified.toTime e
        | PyVal.notInt => Classified.badDeadline
      else if env.hasTr e then
        if env.hasWO e then Classified.toAgg e else Classified.toFlag e
      else Classified.park

/-- Apply the classification: insert the machine into the selected tracker,
or raise the non-integer-deadline `AssertionError`. -/
def applyClass (mid : Nat) (c : Classified) (w : World σ π) :
    World σ π × ARes :=
  match c with
  | Classified.toTime e =>
      ({ w with time_events := w.time_events.add mid e }, ARes.ok)
  | Classified.toAgg e =>
      ({ w with aggregate_events := w.aggregate_events.add mid e }, ARes.ok)
  | Classified.toFlag e =>
      ({ w with flag_events := w.flag_events.add mid e }, ARes.ok)
  | Classified.park => (w, ARes.ok)
  | Classified.badDeadline => (w, ARes.exc "non int deadline")

/-- `advance(now, machine, event)`. -/
def advance (env : Env σ π) (fuel : Nat) (now : Int) (mid : Nat)
    (event : Option Nat) (w : World σ π) : World σ π × ARes :=
  match advanceLoop env now mid event fuel (w.machines mid) with
  | (m2, LoopRes.exc msg, _) => (updMach w mid m2, ARes.exc msg)
  | (m2, LoopRes.fuelOut, _) => (updMach w mid m2, ARes.fuelOut)
  | (m2, LoopRes.done ne, _) =>
      applyClass mid (classify env (resolveEvent ne event)) (updMach w mid m2)

/- ------------------------------------------------------------------
   process_event and the run-loop body.
   ------------------------------------------------------------------ -/

/-- The `for machine in self.dequeue(event)` loop of `process_event`:
advance each subscriber, then collect it when it itself has a `triggered`
attribute and `machine.triggered()` is true. -/
def processMachines (env : Env σ π) (fuel : Nat) (now : Int) (e : Nat) :
    List Nat → World σ π → World σ π × PRes × List Act
  | [], w => (w, PRes.ok [], [])
  | mid :: rest, w =>
      match advance env fuel now mid (some e) w with
      | (w1, ARes.ok) =>
          let hit := env.hasTr mid && env.triggered mid (payloads w1)
          (match processMachines env fuel now e rest w1 with
           | (w2, PRes.ok l, log) =>
               (w2, PRes.ok (if hit then mid :: l else l),
                Act.advanced mid :: log)
           | (w2, PRes.exc msg, log) =>
               (w2, PRes.exc msg, Act.advanced mid :: log)
           | (w2, PRes.fuelOut, log) =>
               (w2, PRes.fuelOut, Act.advanced mid :: log)
           | (w2, PRes.keyError, log) =>
               (w2, PRes.keyError, Act.advanced mid :: log))
      | (w1, ARes.exc msg) => (w1, PRes.exc msg, [Act.advanced mid])
      | (w1, ARes.fuelOut) => (w1, PRes.fuelOut, [Act.advanced mid])

/-- `EventTracker.process_event(now, event)` on the selected tracker. -/
def process_event (env : Env σ π) (fuel : Nat) (now : Int) (sel : TSel)
    (e : Nat) (w : World σ π) : World σ π × PRes × List Act :=
  match Tracker.dequeue (w.getT sel) e with
  | Option.none => (w, PRes.keyError, [])
  | some (ms, t2) => processMachines env fuel now e ms (w.setT sel t2)

/-- The `for aggregate_event in aggregate_events.search(event)` loop:
process each found aggregate event, accumulating the machines to extend the
worklist with. -/
def aggFold (env : Env σ π) (fuel : Nat) (now : Int) :
    List Nat → World σ π → World σ π × PRes × List Act
  | [], w => (w, PRes.ok [], [])
  | e :: rest, w =>
      match process_event env fuel now TSel.aggregate e w with
      | (w1, PRes.ok l, log) =>
          (match aggFold env fuel now rest w1 with
           | (w2, PRes.ok l2, log2) => (w2, PRes.ok (l ++ l2), log ++ log2)
           | (w2, PRes.exc msg, log2) => (w2, PRes.exc msg, log ++ log2)
           | (w2, PRes.fuelOut, log2) => (w2, PRes.fuelOut, log ++ log2)
           | (w2, PRes.keyError, log2) => (w2, PRes.keyError, log ++ log2))
      | (w1, PRes.exc msg, log) => (w1, PRes.exc msg, log)
      | (w1, PRes.fuelOut, log) => (w1, PRes.fuelOut, log)
      | (w1, PRes.keyError, log) => (w1, PRes.keyError, log)

/-- The `while triggered_machines:` cascade loop of `run`.  The worklist is a
Python list used as a stack: `pop()` takes the last element and
`extend` appends.  Each popped machine is looked up as an event: if it is in
the flag tracker, its subscribers are processed; otherwise the aggregate
tracker is searched for triggered aggregates waiting on it. -/
def cascade (env : Env σ π) (fuel : Nat) (now : Int) :
    Nat → List Nat → World σ π → World σ π × FRes × List Act
  | 0, wl, w => if wl.isEmpty then (w, FRes.ok, []) else (w, FRes.fuelOut, [])
  | cf + 1, wl, w =>
      match wl.getLast? with
      | Option.none => (w, FRes.ok, [])
      | some ev =>
          let wl2 := wl.dropLast
          if (lookupE w.flag_events.events ev).isSome then
            match process_event env fuel now TSel.flag ev w with
            | (w1, PRes.ok l, log) =>
                (match cascade env fuel now cf (wl2 ++ l) w1 with
                 | (w2, r, log2) => (w2, r, log ++ log2))
            | (w1, PRes.exc msg, log) => (w1, FRes.exc msg, log)
            | (w1, PRes.fuelOut, log) => (w1, FRes.fuelOut, log)
            | (w1, PRes.keyError, log) => (w1, FRes.keyError, log)
          else
            match aggFold env fuel now
                (Tracker.searchA w.aggregate_events env ev (payloads w)) w with
            | (w1, PRes.ok l, log) =>
                (match cascade env fuel now cf (wl2 ++ l) w1 with
                 | (w2, r, log2) => (w2, r, log ++ log2))
            | (w1, PRes.exc msg, log) => (w1, FRes.exc msg, log)
            | (w1, PRes.fuelOut, log) => (w1, FRes.fuelOut, log)
            | (w1, PRes.keyError, log) => (w1, FRes.keyError, log)

/-- The `for machine in pending_adds` loop of `do_adds`: force the state to
`start`, then advance with a null originating event. -/
def addsFold (env : Env σ π) (fuel : Nat) (now : Int) :
    List Nat → World σ π → World σ π × FRes × List Act
  | [], w => (w, FRes.ok, [])
  | mid :: rest, w =>
      let m := w.machines mid
      let w0 := updMach w mid { m with state := env.start mid }
      match advance env fuel now mid Option.none w0 with
      | (w1, ARes.ok) =>
          (match addsFold env fuel now rest w1 with
           | (w2, r, log) => (w2, r, Act.advanced mid :: log))
      | (w1, ARes.exc msg) => (w1, FRes.exc msg, [Act.advanced mid])
      | (w1, ARes.fuelOut) => (w1, FRes.fuelOut, [Act.advanced mid])

/-- `do_adds(now)`: run the queued registrations; the queue is cleared only
after the loop completes (an exception leaves it untouched). -/
def do_adds (env : Env σ π) (fuel : Nat) (now : Int) (w : World σ π) :
    World σ π × FRes × List Act :=
  match addsFold env fuel now w.pending_adds w with
  | (w1, FRes.ok, log) => ({ w1 with pending_adds := [] }, FRes.ok, log)
  | (w1, r, log) => (w1, r, log)

/-- The `for machine in pending_deletes` loop of `do_deletes`: remove the
machine from all three trackers (`finish`, an external side effect, has no
bearing on the scheduler state). -/
def delsFold : List Nat → World σ π → World σ π
  | [], w => w
  | mid :: rest, w =>
      delsFold rest
        { w with time_events := w.time_events.delete mid,
                 flag_events := w.flag_events.delete mid,
                 aggregate_events := w.aggregate_events.delete mid }

/-- `do_deletes()`. -/
def do_deletes (w : World σ π) : World σ π :=
  { delsFold w.pending_deletes w with pending_deletes := [] }

/-- The body of one run-loop iteration after `fired_event.happend(now)`
returned true: advance the fired event's subscribers, run the cascade until
the worklist empties, commit adds then deletes, and invoke the per-iteration
hooks (`nhooks` of them).  Returns the action log used to state ordering
properties. -/
def fireBody (env : Env σ π) (fuel cfuel : Nat) (now : Int) (fired : Nat)
    (nhooks : Nat) (w : World σ π) : World σ π × FRes × List Act :=
  match process_event env fuel now TSel.time fired w with
  | (w1, PRes.ok tm, log1) =>
      (match cascade env fuel now cfuel tm w1 with
       | (w2, FRes.ok, log2) =>
           (match do_adds env fuel now w2 with
            | (w3, FRes.ok, log3) =>
                (do_deletes w3, FRes.ok,
                 log1 ++ log2 ++ (Act.commit_adds :: log3) ++
                   (Act.commit_deletes :: (List.range nhooks).map Act.hook))
            | (w3, FRes.exc msg, log3) =>
                (w3, FRes.exc msg, log1 ++ log2 ++ Act.commit_adds :: log3)
            | (w3, FRes.fuelOut, log3) =>
                (w3, FRes.fuelOut, log1 ++ log2 ++ Act.commit_adds :: log3)
            | (w3, FRes.keyError, log3) =>
                (w3, FRes.keyError, log1 ++ log2 ++ Act.commit_adds :: log3))
       | (w2, FRes.exc msg, log2) => (w2, FRes.exc msg, log1 ++ log2)
       | (w2, FRes.fuelOut, log2) => (w2, FRes.fuelOut, log1 ++ log2)
       | (w2, FRes.keyError, log2) => (w2, FRes.keyError, log1 ++ log2))
  | (w1, PRes.exc msg, log1) => (w1, FRes.exc msg, log1)
  | (w1, PRes.fuelOut, log1) => (w1, FRes.fuelOut, log1)
  | (w1, PRes.keyError, log1) => (w1, FRes.keyError, log1)

/- ------------------------------------------------------------------
   Concrete time-event sources: Pulser and OneShot.
   Periods and deadlines are absolute nanosecond integers.
   ------------------------------------------------------------------ -/

structure Pulser where
  period : Int
  deadline : Int
deriving DecidableEq

/-- `Pulser.__init__`: the first deadline is one period from now. -/
def Pulser.init (now periodNs : Int) : Pulser :=
  { period := periodNs, deadline := now + periodNs }

/-- `Pulser.happend(now)`: advance the deadline by one period; if `now` has
already passed the new deadline, shed the backlog by resetting it to
`now + period`.  Always returns `True`. -/
def Pulser.happend (p : Pulser) (now : Int) : Pulser × Bool :=
  let d := p.deadline + p.period
  let d2 := if now > d then now + p.period else d
  ({ p with deadline := d2 }, true)

def Pulser.next_deadline (p : Pulser) : Int := p.deadline

/-- The deadlines reported by `next_deadline()` after each of a sequence of
`happend` calls. -/
def pulserDeadlines (p : Pulser) : List Int → List Int
  | [] => []
  | n :: rest =>
      ((p.happend n).1).next_deadline :: pulserDeadlines (p.happend n).1 rest

structure OneShot where
  deadline : Int
deriving DecidableEq

/-- `OneShot.__init__(now, period)`. -/
def OneShot.init (now period : Int) : OneShot := ⟨now + period⟩

/-- `OneShot.happend(now)`: no mutation, always `True`. -/
def OneShot.happend (o : OneShot) (now : Int) : OneShot × Bool := (o, true)

def OneShot.next_deadline (o : OneShot) : Int := o.deadline

/-- A OneShot after a sequence of `happend` calls. -/
def oneShotRun (o : OneShot) : List Int → OneShot
  | [] => o
  | n :: rest => oneShotRun (o.happend n).1 rest

/- ------------------------------------------------------------------
   A small concrete object graph used to evaluate the theorems on
   explicit inputs (machine states are `Nat`, payloads are `Int`).

   Machines: 0 chains two immediate transitions then subscribes to time
   event 100; 1 returns `(None, None)`; 2 takes one immediate transition
   then raises "boom"; 3 subscribes to time event 101 (whose deadline is
   not an int); 4 subscribes to object 104 (both a time and a flag
   event); 5 subscribes to flag event 103 and latches its own
   `triggered()` by setting its payload to 1; 6 subscribes to flag
   event 103 but has no `triggered` attribute itself.
   ------------------------------------------------------------------ -/

def tstep : Nat → Nat → Int → Int → StepOut Nat Int
  | 0, 0, p, _ => StepOut.ret p (some 1) NextRet.immediate
  | 0, 1, p, _ => StepOut.ret p (some 2) NextRet.immediate
  | 0, 2, p, _ => StepOut.ret p (some 3) (NextRet.ev 100)
  | 1, _, p, _ => StepOut.ret (p + 1) Option.none NextRet.none
  | 2, 0, p, _ => StepOut.ret p (some 1) NextRet.immediate
  | 2, 1, p, _ => StepOut.exc p "boom"
  | 3, _, p, _ => StepOut.ret p (some 1) (NextRet.ev 101)
  | 4, _, p, _ => StepOut.ret p (some 1) (NextRet.ev 104)
  | 5, _, _, _ => StepOut.ret 1 (some 1) (NextRet.ev 103)
  | 6, _, p, _ => StepOut.ret p (some 1) (NextRet.ev 103)
  | _, _, p, _ => StepOut.ret p Option.none NextRet.none

def tenv : Env Nat Int :=
  { step := tstep
    start := fun _ => 0
    hasND := fun e => decide (e = 100 ∨ e = 101 ∨ e = 102 ∨ e = 104)
    nd := fun e =>
      if e = 101 then PyVal.notInt
      else if e = 104 then PyVal.int 7 else PyVal.int 5
    hasTr := fun e => decide (e = 5 ∨ e = 103 ∨ e = 104 ∨ e = 105)
    triggered := fun e ρ =>
      if e = 5 then decide (ρ 5 > 0)
      else decide (e = 103 ∨ e = 104 ∨ e = 105)
    hasWO := fun e => decide (e = 105)
    waiting_on := fun e t => decide (e = 105 ∧ t = 5) }

/-- A world with empty trackers and all machines in state 0. -/
def w0 : World Nat Int :=
  { machines := fun _ => { state := 0, payload := 0, transitions := 0 }
    time_events := ⟨[]⟩
    flag_events := ⟨[]⟩
    aggregate_events := ⟨[]⟩
    pending_adds := []
    pending_deletes := [] }

/-- Time event 100 fired with subscribers 5 and 6. -/
def wPE : World Nat Int := { w0 with time_events := ⟨[(100, [5, 6])]⟩ }

/-- Time event 100 fired with single subscriber 6 (which has no
`triggered` attribute but resubscribes to the triggered flag 103). -/
def wCex : World Nat Int := { w0 with time_events := ⟨[(100, [6])]⟩ }

/-- A tracker holding machine 5 under two events and machine 9 under a
third, used to evaluate the deletion theorem. -/
def t7 : Tracker := ⟨[(1, [5]), (2, [5, 7]), (3, [9])]⟩

/- ==================================================================
   Helper lemmas.
   ================================================================== -/

theorem removeFirst_eq_erase (l : List Nat) (m : Nat) :
    removeFirst l m = l.erase m := by
  induction l with
  | nil => rfl
  | cons x xs ih =>
      simp only [removeFirst, List.erase_cons]
      by_cases h : x = m
      · simp [h]
      · simp [h, ih, Ne.symm h]

theorem removeFirst_of_not_mem {l : List Nat} {m : Nat} (h : m ∉ l) :
    removeFirst l m = l := by
  induction l with
  | nil => rfl
  | cons x xs ih =>
      simp only [List.mem_cons, not_or] at h
      simp only [removeFirst, if_neg (Ne.symm h.1)]
      rw [ih h.2]

theorem not_mem_removeFirst {l : List Nat} {m : Nat} (h : l.count m ≤ 1) :
    m ∉ removeFirst l m := by
  induction l with
  | nil => simp [removeFirst]
  | cons x xs ih =>
      simp only [removeFirst]
      by_cases hx : x = m
      · subst hx
        rw [if_pos rfl]
        rw [List.count_cons_self] at h
        exact List.count_eq_zero.mp (by omega)
      · rw [if_neg hx]
        rw [List.count_cons_of_ne (by exact fun hc => hx hc.symm)] at h
        simp only [List.mem_cons, not_or]
        exact ⟨fun hc => hx hc.symm, ih h⟩

theorem lookupE_eq_none {l : List (Nat × List Nat)} {e : Nat} :
    lookupE l e = Option.none ↔ e ∉ l.map Prod.fst := by
  induction l with
  | nil => simp [lookupE]
  | cons hd tl ih =>
      obtain ⟨k, ms⟩ := hd
      simp only [lookupE, List.map_cons, List.mem_cons, not_or]
      by_cases h : k = e
      · subst h
        simp
      · rw [if_neg h, ih]
        constructor
        · exact fun hh => ⟨fun hc => h hc.symm, hh⟩
        · exact fun hh => hh.2

theorem lookupE_mem {l : List (Nat × List Nat)} {e : Nat} {ms : List Nat}
    (h : lookupE l e = some ms) : (e, ms) ∈ l := by
  induction l with
  | nil => simp [lookupE] at h
  | cons hd tl ih =>
      obtain ⟨k, ms2⟩ := hd
      simp only [lookupE] at h
      by_cases hk : k = e
      · rw [if_pos hk] at h
        injection h with h
        subst hk; subst h
        exact List.mem_cons_self _ _
      · rw [if_neg hk] at h
        exact List.mem_cons_of_mem _ (ih h)

theorem delList_lookup_none {l : List (Nat × List Nat)} {mid e : Nat}
    (h : lookupE l e = Option.none) :
    lookupE (delList l mid) e = Option.none := by
  induction l with
  | nil => rfl
  | cons hd tl ih =>
      obtain ⟨k, ms⟩ := hd
      simp only [lookupE] at h
      by_cases hk : k = e
      · rw [if_pos hk] at h; cases h
      · rw [if_neg hk] at h
        simp only [delList]
        by_cases hemp : (removeFirst ms mid).isEmpty
        · rw [if_pos hemp]; exact ih h
        · rw [if_neg hemp]
          simp only [lookupE, if_neg hk]
          exact ih h

theorem delList_lookup_some {l : List (Nat × List Nat)} {mid e : Nat}
    {ms : List Nat} (hkeys : (l.map Prod.fst).Nodup)
    (h : lookupE l e = some ms) :
    lookupE (delList l mid) e =
      (if (ms.erase mid).isEmpty then Option.none
       else some (ms.erase mid)) := by
  induction l with
  | nil => cases h
  | cons hd tl ih =>
      obtain ⟨k, ms2⟩ := hd
      simp only [List.map_cons, List.nodup_cons] at hkeys
      obtain ⟨hknot, htl⟩ := hkeys
      simp only [lookupE] at h
      simp only [delList]
      by_cases hke : k = e
      · subst hke
        rw [if_pos rfl] at h
        injection h with h
        subst h
        rw [← removeFirst_eq_erase]
        by_cases hemp : (removeFirst ms2 mid).isEmpty
        · rw [if_pos hemp, if_pos hemp]
          exact delList_lookup_none (lookupE_eq_none.mpr hknot)
        · rw [if_neg hemp, if_neg hemp]
          simp [lookupE]
      · rw [if_neg hke] at h
        by_cases hemp : (removeFirst ms2 mid).isEmpty
        · rw [if_pos hemp]
          exact ih htl h
        · rw [if_neg hemp]
          simp only [lookupE, if_neg hke]
          exact ih htl h

theorem delList_of_untouched {l : List (Nat × List Nat)} {mid : Nat}
    (h : ∀ p ∈ l, mid ∉ p.2 ∧ p.2 ≠ []) : delList l mid = l := by
  induction l with
  | nil => rfl
  | cons hd tl ih =>
      obtain ⟨k, ms⟩ := hd
      obtain ⟨hnm, hne⟩ := h (k, ms) (List.mem_cons_self _ _)
      simp only [delList, removeFirst_of_not_mem hnm]
      rw [if_neg (by simpa [List.isEmpty_iff] using hne)]
      rw [ih (fun p hp => h p (List.mem_cons_of_mem _ hp))]

theorem call_state_transitions (env : Env σ π) (now : Int) (mid : Nat)
    (event : Option Nat) (m : MachState σ π) :
    ((call_state env now mid event m).1).transitions = m.transitions + 1 := by
  simp only [call_state]
  cases env.step mid m.state m.payload now <;> rfl

theorem call_state_exc_state {env : Env σ π} {now : Int} {mid : Nat}
    {event : Option Nat} {m : MachState σ π} {msg : String}
    (h : (call_state env now mid event m).2 = CallRes.exc msg) :
    ((call_state env now mid event m).1).state = m.state := by
  cases hs : env.step mid m.state m.payload now with
  | ret p ns ne => simp [call_state, hs] at h
  | exc p m2 => simp [call_state, hs]

theorem afterCalls_transitions (env : Env σ π) (now : Int) (mid : Nat)
    (event : Option Nat) :
    ∀ (k : Nat) (m : MachState σ π),
      (afterCalls env now mid event k m).transitions = m.transitions + k := by
  intro k
  induction k with
  | zero => intro m; rfl
  | succ k ih =>
      intro m
      simp only [afterCalls]
      rw [ih, call_state_transitions]
      omega

theorem afterCalls_succ (env : Env σ π) (now : Int) (mid : Nat)
    (event : Option Nat) (k : Nat) (m : MachState σ π) :
    afterCalls env now mid event (k + 1) m =
      (call_state env now mid event (afterCalls env now mid event k m)).1 := by
  induction k generalizing m with
  | zero => rfl
  | succ k ih =>
      show afterCalls env now mid event (k + 1)
          ((call_state env now mid event m).1) = _
      rw [ih]
      rfl

/-- If the first `k` invocations of `call_state` return the immediate
sentinel and the `(k+1)`-st returns a non-sentinel value, the loop in
`advance` stops there (given enough fuel), having made `k+1` calls. -/
theorem advanceLoop_done (env : Env σ π) (now : Int) (mid : Nat)
    (event : Option Nat) (k : Nat) {ne : NextRet} :
    ∀ (fuel : Nat) (m : MachState σ π),
      (∀ i, i < k →
        (call_state env now mid event
          (afterCalls env now mid event i m)).2 =
          CallRes.ok NextRet.immediate) →
      (call_state env now mid event
        (afterCalls env now mid event k m)).2 = CallRes.ok ne →
      ne ≠ NextRet.immediate →
      k + 1 ≤ fuel →
      advanceLoop env now mid event fuel m =
        (afterCalls env now mid event (k + 1) m, LoopRes.done ne, k + 1) := by
  induction k with
  | zero =>
      intro fuel m himm hfin hne hfuel
      obtain ⟨f, rfl⟩ : ∃ f, fuel = f + 1 := ⟨fuel - 1, by omega⟩
      rcases hc : call_state env now mid event m with ⟨m2, r⟩
      have hfin2 : r = CallRes.ok ne := by
        have h2 := hfin
        simp only [afterCalls] at h2
        rw [hc] at h2
        exact h2
      subst hfin2
      simp only [advanceLoop, hc]
      cases ne with
      | immediate => exact absurd rfl hne
      | none => simp [afterCalls, hc]
      | ev e => simp [afterCalls, hc]
  | succ k ih =>
      intro fuel m himm hfin hne hfuel
      obtain ⟨f, rfl⟩ : ∃ f, fuel = f + 1 := ⟨fuel - 1, by omega⟩
      have h0 := himm 0 (Nat.succ_pos k)
      rcases hc : call_state env now mid event m with ⟨m2, r⟩
      have h02 : r = CallRes.ok NextRet.immediate := by
        simp only [afterCalls] at h0
        rw [hc] at h0
        exact h0
      subst h02
      have hshift : ∀ i, afterCalls env now mid event (i + 1) m =
          afterCalls env now mid event i m2 := by
        intro i
        simp [afterCalls, hc]
      have ih2 := ih f m2
        (fun i hi => by
          rw [← hshift i]
          exact himm (i + 1) (by omega))
        (by rw [← hshift k]; exact hfin)
        hne (by omega)
      simp only [advanceLoop, hc, ih2]
      rw [← hshift (k + 1)]

/-- If the first `k` invocations return the sentinel and the `(k+1)`-st
raises, the loop propagates the exception after `k+1` calls. -/
theorem advanceLoop_exc (env : Env σ π) (now : Int) (mid : Nat)
    (event : Option Nat) (k : Nat) {msg : String} :
    ∀ (fuel : Nat) (m : MachState σ π),
      (∀ i, i < k →
        (call_state env now mid event
          (afterCalls env now mid event i m)).2 =
          CallRes.ok NextRet.immediate) →
      (call_state env now mid event
        (afterCalls env now mid event k m)).2 = CallRes.exc msg →
      k + 1 ≤ fuel →
      advanceLoop env now mid event fuel m =
        (afterCalls env now mid event (k + 1) m, LoopRes.exc msg, k + 1) := by
  induction k with
  | zero =>
      intro fuel m himm hfin hfuel
      obtain ⟨f, rfl⟩ : ∃ f, fuel = f + 1 := ⟨fuel - 1, by omega⟩
      rcases hc : call_state env now mid event m with ⟨m2, r⟩
      have hfin2 : r = CallRes.exc msg := by
        have h2 := hfin
        simp only [afterCalls] at h2
        rw [hc] at h2
        exact h2
      subst hfin2
      simp only [advanceLoop, hc]
      simp [afterCalls, hc]
  | succ k ih =>
      intro fuel m himm hfin hfuel
      obtain ⟨f, rfl⟩ : ∃ f, fuel = f + 1 := ⟨fuel - 1, by omega⟩
      have h0 := himm 0 (Nat.succ_pos k)
      rcases hc : call_state env now mid event m with ⟨m2, r⟩
      have h02 : r = CallRes.ok NextRet.immediate := by
        simp only [afterCalls] at h0
        rw [hc] at h0
        exact h0
      subst h02
      have hshift : ∀ i, afterCalls env now mid event (i + 1) m =
          afterCalls env now mid event i m2 := by
        intro i
        simp [afterCalls, hc]
      have ih2 := ih f m2
        (fun i hi => by
          rw [← hshift i]
          exact himm (i + 1) (by omega))
        (by rw [← hshift k]; exact hfin)
        (by omega)
      simp only [advanceLoop, hc, ih2]
      rw [← hshift (k + 1)]

/-- `advance` after a loop that completed normally is the capability
classification applied to the machine-updated world. -/
theorem advance_eq_applyClass {env : Env σ π} {now : Int} {mid : Nat}
    {event : Option Nat} {fuel : Nat} {w : World σ π} {m2 : MachState σ π}
    {ne : NextRet} {c : Nat}
    (hloop : advanceLoop env now mid event fuel (w.machines mid) =
      (m2, LoopRes.done ne, c)) :
    advance env fuel now mid event w =
      applyClass mid (classify env (resolveEvent ne event))
        (updMach w mid m2) := by
  simp only [advance, hloop]

theorem updMach_machines_self (w : World σ π) (mid : Nat)
    (m : MachState σ π) : (updMach w mid m).machines mid = m := by
  simp [updMach]

theorem applyClass_machines (mid : Nat) (c : Classified) (w : World σ π) :
    ((applyClass mid c w).1).machines = w.machines := by
  cases c <;> rfl

theorem classify_to_time {env : Env σ π} {e : Nat} {n : Int}
    (hnd : env.hasND e = true) (hn : env.nd e = PyVal.int n) :
    classify env (some e) = Classified.toTime e := by
  simp [classify, hnd, hn]

theorem classify_to_bad {env : Env σ π} {e : Nat}
    (hnd : env.hasND e = true) (hx : env.nd e = PyVal.notInt) :
    classify env (some e) = Classified.badDeadline := by
  simp [classify, hnd, hx]

theorem classify_to_flag {env : Env σ π} {e : Nat}
    (hnd : env.hasND e = false) (htr : env.hasTr e = true)
    (hwo : env.hasWO e = false) :
    classify env (some e) = Classified.toFlag e := by
  simp [classify, hnd, htr, hwo]

theorem classify_to_agg {env : Env σ π} {e : Nat}
    (hnd : env.hasND e = false) (htr : env.hasTr e = true)
    (hwo : env.hasWO e = true) :
    classify env (some e) = Classified.toAgg e := by
  simp [classify, hnd, htr, hwo]

theorem addE_lookup (l : List (Nat × List Nat)) (e mid : Nat) :
    lookupE (addE l e mid) e = some ((lookupE l e).getD [] ++ [mid]) := by
  induction l with
  | nil => simp [addE, lookupE]
  | cons hd tl ih =>
      obtain ⟨k, ms⟩ := hd
      simp only [addE, lookupE]
      by_cases hk : k = e
      · rw [if_pos hk]
        simp [lookupE, hk]
      · rw [if_neg hk]
        simp only [lookupE, if_neg hk]
        exact ih

theorem subscribed_add (t : Tracker) (mid e : Nat) :
    (t.add mid e).subscribed mid e = true := by
  simp only [Tracker.add, Tracker.subscribed, addE_lookup]
  simp

theorem addE_entriesWith (l : List (Nat × List Nat)) (mid e : Nat)
    (h : (l.filter (fun p => decide (mid ∈ p.2))).map Prod.fst = []) :
    ((addE l e mid).filter (fun p => decide (mid ∈ p.2))).map Prod.fst =
      [e] := by
  induction l with
  | nil => simp [addE]
  | cons hd tl ih =>
      obtain ⟨k, ms⟩ := hd
      by_cases hm : mid ∈ ms
      · exfalso
        simp [List.filter_cons, hm] at h
      · simp only [List.filter_cons, decide_eq_true_eq, hm] at h
        rw [if_neg (by simp [hm])] at h
        simp only [addE]
        by_cases hk : k = e
        · rw [if_pos hk]
          subst hk
          simp only [List.filter_cons, decide_eq_true_eq]
          rw [if_pos (by simp)]
          simp only [List.map_cons, h]
        · rw [if_neg hk]
          simp only [List.filter_cons, decide_eq_true_eq]
          rw [if_neg (by simp [hm])]
          exact ih h

theorem entriesWith_add_self (t : Tracker) (mid e : Nat)
    (h : t.entriesWith mid = []) :
    (t.add mid e).entriesWith mid = [e] :=
  addE_entriesWith t.events mid e h

theorem advance_machines_other {env : Env σ π} {fuel : Nat} {now : Int}
    {mid : Nat} {event : Option Nat} {w : World σ π} (j : Nat)
    (hj : j ≠ mid) :
    ((advance env fuel now mid event w).1).machines j = w.machines j := by
  rcases h2 : advanceLoop env now mid event fuel (w.machines mid)
    with ⟨m2, r, c⟩
  cases r with
  | exc msg =>
      simp only [advance, h2]
      simp [updMach, hj]
  | fuelOut =>
      simp only [advance, h2]
      simp [updMach, hj]
  | done ne =>
      simp only [advance, h2]
      rw [applyClass_machines]
      simp [updMach, hj]

theorem processMachines_machines_not_mem (env : Env σ π) (fuel : Nat)
    (now : Int) (e : Nat) :
    ∀ (ms : List Nat) (w : World σ π) (j : Nat), j ∉ ms →
      ((processMachines env fuel now e ms w).1).machines j =
        w.machines j := by
  intro ms
  induction ms with
  | nil => intro w j hj; rfl
  | cons mid rest ih =>
      intro w j hj
      simp only [List.mem_cons, not_or] at hj
      obtain ⟨hj1, hj2⟩ := hj
      rcases h1 : advance env fuel now mid (some e) w with ⟨w1, r1⟩
      have hadv : w1.machines j = w.machines j := by
        have h3 := @advance_machines_other σ π env fuel now mid (some e) w
          j hj1
        rw [h1] at h3
        exact h3
      cases r1 with
      | ok =>
          rcases h2 : processMachines env fuel now e rest w1 with ⟨w2, r2, lg⟩
          have hrest : w2.machines j = w1.machines j := by
            have h4 := ih w1 j hj2
            rw [h2] at h4
            exact h4
          simp only [processMachines, h1, h2]
          cases r2 <;> simp <;> rw [hrest, hadv]
      | exc msg =>
          simp only [processMachines, h1]
          exact hadv
      | fuelOut =>
          simp only [processMachines, h1]
          exact hadv

theorem processMachines_ok_log (env : Env σ π) (fuel : Nat) (now : Int)
    (e : Nat) :
    ∀ (ms : List Nat) (w w2 : World σ π) (l : List Nat) (log : List Act),
      processMachines env fuel now e ms w = (w2, PRes.ok l, log) →
      log = ms.map Act.advanced := by
  intro ms
  induction ms with
  | nil =>
      intro w w2 l log h
      simp only [processMachines, Prod.mk.injEq] at h
      obtain ⟨h1, h2, h3⟩ := h
      simp [← h3]
  | cons mid rest ih =>
      intro w w2 l log h
      rcases h1 : advance env fuel now mid (some e) w with ⟨w1, r1⟩
      cases r1 with
      | ok =>
          simp only [processMachines, h1] at h
          rcases h2 : processMachines env fuel now e rest w1 with ⟨w3, r2, lg⟩
          cases r2 with
          | ok l2 =>
              simp only [h2, Prod.mk.injEq] at h
              obtain ⟨hw, hl, hlog⟩ := h
              rw [← hlog, ih w1 w3 l2 lg h2]
              rfl
          | exc msg => simp [h2] at h
          | fuelOut => simp [h2] at h
          | keyError => simp [h2] at h
      | exc msg => simp [processMachines, h1] at h
      | fuelOut => simp [processMachines, h1] at h

theorem processMachines_ok_filter (env : Env σ π) (fuel : Nat) (now : Int)
    (e : Nat)
    (htr : ∀ (i : Nat) (ρ ρ2 : Nat → π), ρ i = ρ2 i →
      env.triggered i ρ = env.triggered i ρ2) :
    ∀ (ms : List Nat) (w w2 : World σ π) (l : List Nat) (log : List Act),
      ms.Nodup →
      processMachines env fuel now e ms w = (w2, PRes.ok l, log) →
      l = ms.filter
        (fun mid => env.hasTr mid && env.triggered mid (payloads w2)) := by
  intro ms
  induction ms with
  | nil =>
      intro w w2 l log hnd h
      simp only [processMachines, Prod.mk.injEq] at h
      obtain ⟨h1, h2, h3⟩ := h
      injection h2 with h4
      simp [← h4]
  | cons mid rest ih =>
      intro w w2 l log hnd h
      simp only [List.nodup_cons] at hnd
      obtain ⟨hmid, hnd2⟩ := hnd
      rcases h1 : advance env fuel now mid (some e) w with ⟨w1, r1⟩
      cases r1 with
      | ok =>
          simp only [processMachines, h1] at h
          rcases h2 : processMachines env fuel now e rest w1 with ⟨w3, r2, lg⟩
          cases r2 with
          | ok l2 =>
              simp only [h2, Prod.mk.injEq] at h
              obtain ⟨hw, hl, hlog⟩ := h
              subst hw
              have hp : payloads w1 mid = payloads w3 mid := by
                have h4 := processMachines_machines_not_mem env fuel now e
                  rest w1 mid hmid
                rw [h2] at h4
                simp only [payloads]
                rw [h4]
              have htg : env.triggered mid (payloads w1) =
                  env.triggered mid (payloads w3) := htr mid _ _ hp
              injection hl with hl
              rw [← hl, List.filter_cons,
                ih w1 w3 l2 lg hnd2 h2, htg]
          | exc msg => simp [h2] at h
          | fuelOut => simp [h2] at h
          | keyError => simp [h2] at h
      | exc msg => simp [processMachines, h1] at h
      | fuelOut => simp [processMachines, h1] at h

theorem processMachines_log_advanced (env : Env σ π) (fuel : Nat)
    (now : Int) (e : Nat) :
    ∀ (ms : List Nat) (w : World σ π) (a : Act),
      a ∈ (processMachines env fuel now e ms w).2.2 →
      ∃ mid, a = Act.advanced mid := by
  intro ms
  induction ms with
  | nil => intro w a ha; simp [processMachines] at ha
  | cons mid rest ih =>
      intro w a ha
      rcases h1 : advance env fuel now mid (some e) w with ⟨w1, r1⟩
      cases r1 with
      | ok =>
          simp only [processMachines, h1] at ha
          rcases h2 : processMachines env fuel now e rest w1 with ⟨w3, r2, lg⟩
          have hlg : ∀ a2 ∈ lg, ∃ mid2, a2 = Act.advanced mid2 := by
            intro a2 ha2
            apply ih w1 a2
            rw [h2]
            exact ha2
          cases r2 with
          | ok l2 =>
              simp only [h2] at ha
              rcases List.mem_cons.mp ha with h | h
              · exact ⟨mid, h⟩
              · exact hlg a h
          | exc msg =>
              simp only [h2] at ha
              rcases List.mem_cons.mp ha with h | h
              · exact ⟨mid, h⟩
              · exact hlg a h
          | fuelOut =>
              simp only [h2] at ha
              rcases List.mem_cons.mp ha with h | h
              · exact ⟨mid, h⟩
              · exact hlg a h
          | keyError =>
              simp only [h2] at ha
              rcases List.mem_cons.mp ha with h | h
              · exact ⟨mid, h⟩
              · exact hlg a h
      | exc msg =>
          simp only [processMachines, h1] at ha
          simp at ha
          exact ⟨mid, ha⟩
      | fuelOut =>
          simp only [processMachines, h1] at ha
          simp at ha
          exact ⟨mid, ha⟩

theorem process_event_log_advanced (env : Env σ π) (fuel : Nat) (now : Int)
    (sel : TSel) (e : Nat) (w : World σ π) :
    ∀ a ∈ (process_event env fuel now sel e w).2.2,
      ∃ mid, a = Act.advanced mid := by
  intro a ha
  rcases hd : Tracker.dequeue (w.getT sel) e with _ | ⟨ms, t2⟩
  · simp only [process_event, hd] at ha
    simp at ha
  · simp only [process_event, hd] at ha
    exact processMachines_log_advanced env fuel now e ms (w.setT sel t2) a ha

theorem aggFold_log_advanced (env : Env σ π) (fuel : Nat) (now : Int) :
    ∀ (es : List Nat) (w : World σ π) (a : Act),
      a ∈ (aggFold env fuel now es w).2.2 →
      ∃ mid, a = Act.advanced mid := by
  intro es
  induction es with
  | nil => intro w a ha; simp [aggFold] at ha
  | cons e2 rest ih =>
      intro w a ha
      rcases h1 : process_event env fuel now TSel.aggregate e2 w
        with ⟨w1, r1, lg1⟩
      have hl1 : ∀ a2 ∈ lg1, ∃ mid, a2 = Act.advanced mid := by
        intro a2 ha2
        apply process_event_log_advanced env fuel now TSel.aggregate e2 w a2
        rw [h1]
        exact ha2
      cases r1 with
      | ok l =>
          simp only [aggFold, h1] at ha
          rcases h2 : aggFold env fuel now rest w1 with ⟨w2, r2, lg2⟩
          have hl2 : ∀ a2 ∈ lg2, ∃ mid, a2 = Act.advanced mid := by
            intro a2 ha2
            apply ih w1 a2
            rw [h2]
            exact ha2
          cases r2 with
          | ok l2 =>
              simp only [h2] at ha
              rcases List.mem_append.mp ha with h | h
              · exact hl1 a h
              · exact hl2 a h
          | exc msg =>
              simp only [h2] at ha
              rcases List.mem_append.mp ha with h | h
              · exact hl1 a h
              · exact hl2 a h
          | fuelOut =>
              simp only [h2] at ha
              rcases List.mem_append.mp ha with h | h
              · exact hl1 a h
              · exact hl2 a h
          | keyError =>
              simp only [h2] at ha
              rcases List.mem_append.mp ha with h | h
              · exact hl1 a h
              · exact hl2 a h
      | exc msg =>
          simp only [aggFold, h1] at ha
          exact hl1 a ha
      | fuelOut =>
          simp only [aggFold, h1] at ha
          exact hl1 a ha
      | keyError =>
          simp only [aggFold, h1] at ha
          exact hl1 a ha

theorem cascade_log_advanced (env : Env σ π) (fuel : Nat) (now : Int) :
    ∀ (cf : Nat) (wl : List Nat) (w : World σ π) (a : Act),
      a ∈ (cascade env fuel now cf wl w).2.2 →
      ∃ mid, a = Act.advanced mid := by
  intro cf
  induction cf with
  | zero =>
      intro wl w a ha
      simp only [cascade] at ha
      split at ha <;> simp at ha
  | succ cf ih =>
      intro wl w a ha
      rcases hl : wl.getLast? with _ | ev
      · simp only [cascade, hl] at ha
        simp at ha
      · simp only [cascade, hl] at ha
        by_cases hf : (lookupE w.flag_events.events ev).isSome = true
        · simp only [hf, if_true] at ha
          rcases h1 : process_event env fuel now TSel.flag ev w
            with ⟨w1, r1, lg1⟩
          have hl1 : ∀ a2 ∈ lg1, ∃ mid, a2 = Act.advanced mid := by
            intro a2 ha2
            apply process_event_log_advanced env fuel now TSel.flag ev w a2
            rw [h1]
            exact ha2
          cases r1 with
          | ok l =>
              simp only [h1] at ha
              rcases h2 : cascade env fuel now cf (wl.dropLast ++ l) w1
                with ⟨w2, r2, lg2⟩
              simp only [h2] at ha
              rcases List.mem_append.mp ha with h | h
              · exact hl1 a h
              · exact ih _ w1 a (by rw [h2]; exact h)
          | exc msg =>
              simp only [h1] at ha
              exact hl1 a ha
          | fuelOut =>
              simp only [h1] at ha
              exact hl1 a ha
          | keyError =>
              simp only [h1] at ha
              exact hl1 a ha
        · simp only [Bool.not_eq_true] at hf
          simp only [hf, Bool.false_eq_true, if_false] at ha
          rcases h1 : aggFold env fuel now
              (Tracker.searchA w.aggregate_events env ev (payloads w)) w
            with ⟨w1, r1, lg1⟩
          have hl1 : ∀ a2 ∈ lg1, ∃ mid, a2 = Act.advanced mid := by
            intro a2 ha2
            apply aggFold_log_advanced env fuel now _ w a2
            rw [h1]
            exact ha2
          cases r1 with
          | ok l =>
              simp only [h1] at ha
              rcases h2 : cascade env fuel now cf (wl.dropLast ++ l) w1
                with ⟨w2, r2, lg2⟩
              simp only [h2] at ha
              rcases List.mem_append.mp ha with h | h
              · exact hl1 a h
              · exact ih _ w1 a (by rw [h2]; exact h)
          | exc msg =>
              simp only [h1] at ha
              exact hl1 a ha
          | fuelOut =>
              simp only [h1] at ha
              exact hl1 a ha
          | keyError =>
              simp only [h1] at ha
              exact hl1 a ha

theorem addsFold_log_advanced (env : Env σ π) (fuel : Nat) (now : Int) :
    ∀ (ms : List Nat) (w : World σ π) (a : Act),
      a ∈ (addsFold env fuel now ms w).2.2 →
      ∃ mid, a = Act.advanced mid := by
  intro ms
  induction ms with
  | nil => intro w a ha; simp [addsFold] at ha
  | cons mid rest ih =>
      intro w a ha
      simp only [addsFold] at ha
      rcases h1 : advance env fuel now mid Option.none
          (updMach w mid { w.machines mid with state := env.start mid })
        with ⟨w1, r1⟩
      cases r1 with
      | ok =>
          simp only [h1] at ha
          rcases h2 : addsFold env fuel now rest w1 with ⟨w2, r2, lg⟩
          simp only [h2] at ha
          rcases List.mem_cons.mp ha with h | h
          · exact ⟨mid, h⟩
          · exact ih w1 a (by rw [h2]; exact h)
      | exc msg =>
          simp only [h1] at ha
          simp at ha
          exact ⟨mid, ha⟩
      | fuelOut =>
          simp only [h1] at ha
          simp at ha
          exact ⟨mid, ha⟩

theorem do_adds_log_advanced (env : Env σ π) (fuel : Nat) (now : Int)
    (w : World σ π) :
    ∀ a ∈ (do_adds env fuel now w).2.2, ∃ mid, a = Act.advanced mid := by
  intro a ha
  rcases h1 : addsFold env fuel now w.pending_adds w with ⟨w1, r1, lg⟩
  have hl : ∀ a2 ∈ lg, ∃ mid, a2 = Act.advanced mid := by
    intro a2 ha2
    apply addsFold_log_advanced env fuel now w.pending_adds w a2
    rw [h1]
    exact ha2
  cases r1 with
  | ok => simp only [do_adds, h1] at ha; exact hl a ha
  | exc msg => simp only [do_adds, h1] at ha; exact hl a ha
  | fuelOut => simp only [do_adds, h1] at ha; exact hl a ha
  | keyError => simp only [do_adds, h1] at ha; exact hl a ha

/- ==================================================================
   Claim theorems.
   ================================================================== -/

/-- Claim C2: for every Pulser (a nonnegative period, as produced from a
duration) and every non-decreasing sequence of `happend(now_i)` calls, the
reported `next_deadline()` sequence is non-decreasing; each single
`happend(now)` call moves the deadline to exactly `previous + period`,
except that when `now > previous + period` it moves it to exactly
`now + period`; and `happend` always returns true. -/
theorem claim_c2 (p : Pulser) (nows : List Int) (hper : 0 ≤ p.period)
    (hmono : List.Chain' (· ≤ ·) nows) :
    List.Chain' (· ≤ ·) (p.next_deadline :: pulserDeadlines p nows)
    ∧ (∀ (q : Pulser) (now : Int),
        ((q.happend now).1).next_deadline =
          (if now > q.deadline + q.period then now + q.period
           else q.deadline + q.period)
        ∧ (q.happend now).2 = true) := by
  constructor
  · clear hmono
    induction nows generalizing p with
    | nil => simp [pulserDeadlines]
    | cons n rest ih =>
        have hd : p.deadline ≤ ((p.happend n).1).deadline := by
          simp only [Pulser.happend]
          split <;> omega
        have hper2 : 0 ≤ ((p.happend n).1).period := hper
        simpa only [pulserDeadlines, List.chain'_cons] using
          ⟨hd, ih ((p.happend n).1) hper2⟩
  · intro q now
    exact ⟨rfl, rfl⟩

/-- Witness for C2 at a concrete Pulser and call sequence. -/
theorem claim_c2_witness :
    List.Chain' (· ≤ ·)
      ((Pulser.init 0 10).next_deadline ::
        pulserDeadlines (Pulser.init 0 10) [3, 25, 30])
    ∧ (∀ (q : Pulser) (now : Int),
        ((q.happend now).1).next_deadline =
          (if now > q.deadline + q.period then now + q.period
           else q.deadline + q.period)
        ∧ (q.happend now).2 = true) :=
  claim_c2 (Pulser.init 0 10) [3, 25, 30] (by decide)
    (by simp [List.chain'_cons])

/-- Claim C7: on a tracker whose dict has distinct keys and in which a
machine occurs at most once per subscriber list, `delete(machine)` removes
the machine from every subscriber list it occurs in, drops exactly the
entries whose list becomes empty (keeping the others, with only that
machine removed), is a no-op when the machine occurs nowhere and no entry
is empty, and never leaves an entry with an empty subscriber list. -/
theorem claim_c7 (t : Tracker) (mid : Nat)
    (hkeys : (t.events.map Prod.fst).Nodup)
    (hcnt : ∀ p ∈ t.events, p.2.count mid ≤ 1) :
    (∀ e ms, lookupE t.events e = some ms →
        lookupE (t.delete mid).events e =
          (if (ms.erase mid).isEmpty then Option.none
           else some (ms.erase mid)))
    ∧ (∀ e, lookupE t.events e = Option.none →
        lookupE (t.delete mid).events e = Option.none)
    ∧ (∀ e ms, lookupE (t.delete mid).events e = some ms →
        mid ∉ ms ∧ ms ≠ [])
    ∧ ((∀ p ∈ t.events, mid ∉ p.2 ∧ p.2 ≠ []) → t.delete mid = t) := by
  refine ⟨fun e ms h => delList_lookup_some hkeys h,
          fun e h => delList_lookup_none h, ?_, ?_⟩
  · intro e ms h
    simp only [Tracker.delete] at h
    match hms0 : lookupE t.events e with
    | Option.none =>
        rw [delList_lookup_none hms0] at h
        cases h
    | some ms0 =>
        rw [delList_lookup_some hkeys hms0] at h
        by_cases hemp : (ms0.erase mid).isEmpty
        · rw [if_pos hemp] at h; cases h
        · rw [if_neg hemp] at h
          injection h with h
          subst h
          have hc := hcnt (e, ms0) (lookupE_mem hms0)
          refine ⟨?_, by simpa [List.isEmpty_iff] using hemp⟩
          rw [← removeFirst_eq_erase]
          exact not_mem_removeFirst hc
  · intro h
    show Tracker.mk (delList t.events mid) = t
    rw [delList_of_untouched h]

/-- Witness for C7: deleting machine 5 from a concrete tracker. -/
theorem claim_c7_witness :
    (∀ e ms, lookupE t7.events e = some ms →
        lookupE (t7.delete 5).events e =
          (if (ms.erase 5).isEmpty then Option.none
           else some (ms.erase 5)))
    ∧ (∀ e, lookupE t7.events e = Option.none →
        lookupE (t7.delete 5).events e = Option.none)
    ∧ (∀ e ms, lookupE (t7.delete 5).events e = some ms →
        5 ∉ ms ∧ ms ≠ [])
    ∧ ((∀ p ∈ t7.events, 5 ∉ p.2 ∧ p.2 ≠ []) → t7.delete 5 = t7) :=
  claim_c7 t7 5 (by decide) (by decide)

theorem tenv_triggered_own : ∀ (i : Nat) (ρ ρ2 : Nat → Int), ρ i = ρ2 i →
    tenv.triggered i ρ = tenv.triggered i ρ2 := by
  intro i ρ ρ2 h
  show (if i = 5 then decide (ρ 5 > 0)
        else decide (i = 103 ∨ i = 104 ∨ i = 105)) =
      (if i = 5 then decide (ρ2 5 > 0)
        else decide (i = 103 ∨ i = 104 ∨ i = 105))
  by_cases hi : i = 5
  · subst hi
    rw [if_pos rfl, if_pos rfl, h]
  · rw [if_neg hi, if_neg hi]

/-- Claim C1 (amended): `process_event(now, e)` dequeues `e`, advances each
subscriber via the Advancement Engine in list order, and returns exactly the
subset of those subscribers that themselves expose a `triggered()` capability
and whose `triggered()` returns true after their advancement — i.e. the
subscribers that are themselves currently-triggered Flag/Aggregate events —
regardless of the event each one ends up subscribed to.  (Stated for
machines whose `triggered()` reads only their own state, and a duplicate-free
subscriber list.) -/
theorem claim_c1 {σ π : Type} (env : Env σ π) (fuel : Nat) (now : Int)
    (sel : TSel) (e : Nat) (w w2 : World σ π) (ms l : List Nat)
    (log : List Act)
    (hms : lookupE (w.getT sel).events e = some ms)
    (hnemp : ms ≠ [])
    (hnd : ms.Nodup)
    (htr : ∀ (i : Nat) (ρ ρ2 : Nat → π), ρ i = ρ2 i →
      env.triggered i ρ = env.triggered i ρ2)
    (hrun : process_event env fuel now sel e w = (w2, PRes.ok l, log)) :
    l = ms.filter
        (fun mid => env.hasTr mid && env.triggered mid (payloads w2))
    ∧ log = ms.map Act.advanced := by
  simp only [process_event, Tracker.dequeue, hms] at hrun
  exact ⟨processMachines_ok_filter env fuel now e htr ms _ w2 l log hnd hrun,
    processMachines_ok_log env fuel now e ms _ w2 l log hrun⟩

/-- Counterexample to C1 as stated: time event 100 fires with the single
subscriber 6; after advancement machine 6's outstanding event is 103, which
is a currently-triggered Flag Event, yet `process_event` returns the empty
list (because it tests `machine.triggered()`, not the outstanding event). -/
theorem claim_c1_counterexample :
    lookupE wCex.time_events.events 100 = some [6]
    ∧ (process_event tenv 3 0 TSel.time 100 wCex).2.1 = PRes.ok []
    ∧ ((process_event tenv 3 0 TSel.time 100 wCex).1).flag_events.subscribed
        6 103 = true
    ∧ tenv.hasND 103 = false
    ∧ tenv.hasTr 103 = true
    ∧ tenv.triggered 103
        (payloads (process_event tenv 3 0 TSel.time 100 wCex).1) = true := by
  refine ⟨rfl, rfl, rfl, rfl, rfl, rfl⟩

/-- Witness for the amended C1: event 100 fires with subscribers 5 and 6;
machine 5 latches its own `triggered()` during advancement, machine 6 has no
`triggered` attribute, so exactly `[5]` is returned. -/
theorem claim_c1_witness :
    ([5] : List Nat) = ([5, 6] : List Nat).filter
        (fun mid => tenv.hasTr mid && tenv.triggered mid
          (payloads (process_event tenv 3 0 TSel.time 100 wPE).1))
    ∧ ([Act.advanced 5, Act.advanced 6] : List Act) =
        ([5, 6] : List Nat).map Act.advanced :=
  claim_c1 tenv 3 0 TSel.time 100 wPE
    (process_event tenv 3 0 TSel.time 100 wPE).1 [5, 6] [5]
    [Act.advanced 5, Act.advanced 6] (by decide) (by decide) (by decide)
    tenv_triggered_own rfl

/-- Claim C3: a machine whose state functions return the immediate-transition
sentinel `k` times before returning a non-sentinel result, advanced once with
enough fuel, has `call_state` invoked exactly `k+1` times, its transition
counter incremented by exactly `k+1`, and (when it starts subscribed to
nothing, as after the dequeue that triggered the advancement, and the final
event is classifiable) ends subscribed to exactly one tracker entry — the one
for the final event — with no entry for any intermediate result. -/
theorem claim_c3 {σ π : Type} (env : Env σ π) (now : Int) (mid : Nat)
    (event : Option Nat) (w : World σ π) (k fuel : Nat) (ne : NextRet)
    (e : Nat)
    (himm : ∀ i, i < k →
      (call_state env now mid event
        (afterCalls env now mid event i (w.machines mid))).2 =
        CallRes.ok NextRet.immediate)
    (hfin : (call_state env now mid event
        (afterCalls env now mid event k (w.machines mid))).2 =
        CallRes.ok ne)
    (hne : ne ≠ NextRet.immediate)
    (hres : resolveEvent ne event = some e)
    (hclass : (env.hasND e = true ∧ ∃ n, env.nd e = PyVal.int n)
        ∨ (env.hasND e = false ∧ env.hasTr e = true))
    (hsub : w.entriesAll mid = [])
    (hfuel : k + 1 ≤ fuel) :
    (advance env fuel now mid event w).2 = ARes.ok
    ∧ ((advance env fuel now mid event w).1.machines mid).transitions =
        (w.machines mid).transitions + (k + 1)
    ∧ (advanceLoop env now mid event fuel (w.machines mid)).2.2 = k + 1
    ∧ (advance env fuel now mid event w).1.entriesAll mid = [e] := by
  have hloop := advanceLoop_done env now mid event k fuel (w.machines mid)
    himm hfin hne hfuel
  have hadv := advance_eq_applyClass hloop
  rw [hres] at hadv
  simp only [World.entriesAll, List.append_eq_nil] at hsub
  obtain ⟨⟨ht, hf⟩, ha⟩ := hsub
  have hcount : (advanceLoop env now mid event fuel
      (w.machines mid)).2.2 = k + 1 := by rw [hloop]
  have htrans : ∀ c2 : Classified,
      (((applyClass mid c2 (updMach w mid
          (afterCalls env now mid event (k + 1)
            (w.machines mid)))).1.machines mid).transitions) =
        (w.machines mid).transitions + (k + 1) := by
    intro c2
    rw [applyClass_machines, updMach_machines_self, afterCalls_transitions]
  rcases hclass with ⟨hnd, n, hn⟩ | ⟨hnd, htr⟩
  · rw [hadv, classify_to_time hnd hn]
    refine ⟨rfl, htrans _, hcount, ?_⟩
    simp [applyClass, World.entriesAll, updMach,
      entriesWith_add_self _ _ _ ht, hf, ha]
  · cases hwo : env.hasWO e with
    | true =>
        rw [hadv, classify_to_agg hnd htr hwo]
        refine ⟨rfl, htrans _, hcount, ?_⟩
        simp [applyClass, World.entriesAll, updMach,
          entriesWith_add_self _ _ _ ha, hf, ht]
    | false =>
        rw [hadv, classify_to_flag hnd htr hwo]
        refine ⟨rfl, htrans _, hcount, ?_⟩
        simp [applyClass, World.entriesAll, updMach,
          entriesWith_add_self _ _ _ hf, ht, ha]

/-- Witness for C3: machine 0 chains `k = 2` immediate transitions, then
subscribes to time event 100. -/
theorem claim_c3_witness :
    (advance tenv 5 0 0 Option.none w0).2 = ARes.ok
    ∧ ((advance tenv 5 0 0 Option.none w0).1.machines 0).transitions =
        (w0.machines 0).transitions + (2 + 1)
    ∧ (advanceLoop tenv 0 0 Option.none 5 (w0.machines 0)).2.2 = 2 + 1
    ∧ (advance tenv 5 0 0 Option.none w0).1.entriesAll 0 = [100] :=
  claim_c3 tenv 0 0 Option.none w0 2 5 (NextRet.ev 100) 100
    (by decide) (by decide) (by decide) (by decide)
    (Or.inl ⟨by decide, 5, by decide⟩) (by decide) (by decide)

/-- Claim C4: a machine whose state function returns `(None, None)` when
advanced on event `e` keeps its recorded state and is re-subscribed, in the
appropriate tracker, to the same event `e` that triggered the call. -/
theorem claim_c4 {σ π : Type} (env : Env σ π) (now : Int) (mid : Nat)
    (e : Nat) (w : World σ π) (p2 : π) (fuel : Nat)
    (hstep : env.step mid (w.machines mid).state (w.machines mid).payload now
      = StepOut.ret p2 Option.none NextRet.none)
    (hclass : (env.hasND e = true ∧ ∃ n, env.nd e = PyVal.int n)
        ∨ (env.hasND e = false ∧ env.hasTr e = true))
    (hsub : w.entriesAll mid = [])
    (hfuel : 1 ≤ fuel) :
    (advance env fuel now mid (some e) w).2 = ARes.ok
    ∧ ((advance env fuel now mid (some e) w).1.machines mid).state =
        (w.machines mid).state
    ∧ (advance env fuel now mid (some e) w).1.entriesAll mid = [e] := by
  have hfin : (call_state env now mid (some e)
      (afterCalls env now mid (some e) 0 (w.machines mid))).2 =
      CallRes.ok NextRet.none := by
    simp [afterCalls, call_state, hstep]
  have hloop := advanceLoop_done env now mid (some e) 0 fuel (w.machines mid)
    (by omega) hfin (by decide) hfuel
  have hadv := advance_eq_applyClass hloop
  rw [show resolveEvent NextRet.none (some e) = some e from rfl] at hadv
  simp only [World.entriesAll, List.append_eq_nil] at hsub
  obtain ⟨⟨ht, hf⟩, ha⟩ := hsub
  have hstate : ∀ c2 : Classified,
      (((applyClass mid c2 (updMach w mid
          (afterCalls env now mid (some e) 1
            (w.machines mid)))).1.machines mid).state) =
        (w.machines mid).state := by
    intro c2
    rw [applyClass_machines, updMach_machines_self]
    simp [afterCalls, call_state, hstep]
  rcases hclass with ⟨hnd, n, hn⟩ | ⟨hnd, htr⟩
  · rw [hadv, classify_to_time hnd hn]
    refine ⟨rfl, hstate _, ?_⟩
    simp [applyClass, World.entriesAll, updMach,
      entriesWith_add_self _ _ _ ht, hf, ha]
  · cases hwo : env.hasWO e with
    | true =>
        rw [hadv, classify_to_agg hnd htr hwo]
        refine ⟨rfl, hstate _, ?_⟩
        simp [applyClass, World.entriesAll, updMach,
          entriesWith_add_self _ _ _ ha, hf, ht]
    | false =>
        rw [hadv, classify_to_flag hnd htr hwo]
        refine ⟨rfl, hstate _, ?_⟩
        simp [applyClass, World.entriesAll, updMach,
          entriesWith_add_self _ _ _ hf, ht, ha]

/-- Witness for C4: machine 1 returns `(None, None)` and is re-subscribed
to the flag event 103 that triggered it. -/
theorem claim_c4_witness :
    (advance tenv 1 0 1 (some 103) w0).2 = ARes.ok
    ∧ ((advance tenv 1 0 1 (some 103) w0).1.machines 1).state =
        (w0.machines 1).state
    ∧ (advance tenv 1 0 1 (some 103) w0).1.entriesAll 1 = [103] :=
  claim_c4 tenv 0 1 103 w0 ((0 : Int) + 1) 1 (by decide)
    (Or.inr ⟨by decide, by decide⟩) (by decide) (by decide)

/-- Claim C5: when the `(j+1)`-st state-function invocation inside one
`advance` call raises, the error propagates unmodified out of `advance`, the
transition counter has been incremented for every invocation including the
failing one, the machine's recorded state is the state function that raised
(not rolled back past it), and no tracker is touched. -/
theorem claim_c5 {σ π : Type} (env : Env σ π) (now : Int) (mid : Nat)
    (event : Option Nat) (w : World σ π) (j fuel : Nat) (msg : String)
    (himm : ∀ i, i < j →
      (call_state env now mid event
        (afterCalls env now mid event i (w.machines mid))).2 =
        CallRes.ok NextRet.immediate)
    (hfail : (call_state env now mid event
        (afterCalls env now mid event j (w.machines mid))).2 =
        CallRes.exc msg)
    (hfuel : j + 1 ≤ fuel) :
    (advance env fuel now mid event w).2 = ARes.exc msg
    ∧ ((advance env fuel now mid event w).1.machines mid).transitions =
        (w.machines mid).transitions + (j + 1)
    ∧ ((advance env fuel now mid event w).1.machines mid).state =
        (afterCalls env now mid event j (w.machines mid)).state
    ∧ (advance env fuel now mid event w).1.time_events = w.time_events
    ∧ (advance env fuel now mid event w).1.flag_events = w.flag_events
    ∧ (advance env fuel now mid event w).1.aggregate_events =
        w.aggregate_events := by
  have hloop := advanceLoop_exc env now mid event j fuel (w.machines mid)
    himm hfail hfuel
  have hadv : advance env fuel now mid event w =
      (updMach w mid (afterCalls env now mid event (j + 1) (w.machines mid)),
       ARes.exc msg) := by
    simp only [advance, hloop]
  rw [hadv]
  refine ⟨rfl, ?_, ?_, rfl, rfl, rfl⟩
  · rw [updMach_machines_self, afterCalls_transitions]
  · rw [updMach_machines_self, afterCalls_succ]
    exact call_state_exc_state hfail

/-- Witness for C5: machine 2 takes one immediate transition, then its next
state function raises "boom". -/
theorem claim_c5_witness :
    (advance tenv 3 0 2 Option.none w0).2 = ARes.exc "boom"
    ∧ ((advance tenv 3 0 2 Option.none w0).1.machines 2).transitions =
        (w0.machines 2).transitions + (1 + 1)
    ∧ ((advance tenv 3 0 2 Option.none w0).1.machines 2).state =
        (afterCalls tenv 0 2 Option.none 1 (w0.machines 2)).state
    ∧ (advance tenv 3 0 2 Option.none w0).1.time_events = w0.time_events
    ∧ (advance tenv 3 0 2 Option.none w0).1.flag_events = w0.flag_events
    ∧ (advance tenv 3 0 2 Option.none w0).1.aggregate_events =
        w0.aggregate_events :=
  claim_c5 tenv 0 2 Option.none w0 1 3 "boom" (by decide) (by decide)
    (by decide)

/-- Claim C6: when the advancement loop finishes on a final event exposing
`next_deadline`, a non-integer deadline makes `advance` raise the fatal
assertion without adding the machine to any tracker, while an integer
deadline makes `advance` add the machine to the Time Tracker and return
without error. -/
theorem claim_c6 {σ π : Type} (env : Env σ π) (now : Int) (mid : Nat)
    (event : Option Nat) (w : World σ π) (fuel c : Nat)
    (m2 : MachState σ π) (ne : NextRet) (e : Nat)
    (hloop : advanceLoop env now mid event fuel (w.machines mid) =
      (m2, LoopRes.done ne, c))
    (hres : resolveEvent ne event = some e)
    (hnd : env.hasND e = true) :
    (env.nd e = PyVal.notInt →
        (advance env fuel now mid event w).2 = ARes.exc "non int deadline"
        ∧ (advance env fuel now mid event w).1.time_events = w.time_events
        ∧ (advance env fuel now mid event w).1.flag_events = w.flag_events
        ∧ (advance env fuel now mid event w).1.aggregate_events =
            w.aggregate_events)
    ∧ (∀ n, env.nd e = PyVal.int n →
        (advance env fuel now mid event w).2 = ARes.ok
        ∧ (advance env fuel now mid event w).1.time_events =
            w.time_events.add mid e
        ∧ (advance env fuel now mid event w).1.time_events.subscribed mid e =
            true) := by
  have hadv := advance_eq_applyClass hloop
  rw [hres] at hadv
  constructor
  · intro hx
    rw [hadv, classify_to_bad hnd hx]
    exact ⟨rfl, rfl, rfl, rfl⟩
  · intro n hx
    rw [hadv, classify_to_time hnd hx]
    exact ⟨rfl, rfl, subscribed_add _ _ _⟩

/-- Witness for C6: machine 3 subscribes to time event 101, whose
`next_deadline()` is not an int. -/
theorem claim_c6_witness :
    (tenv.nd 101 = PyVal.notInt →
        (advance tenv 2 0 3 Option.none w0).2 = ARes.exc "non int deadline"
        ∧ (advance tenv 2 0 3 Option.none w0).1.time_events = w0.time_events
        ∧ (advance tenv 2 0 3 Option.none w0).1.flag_events = w0.flag_events
        ∧ (advance tenv 2 0 3 Option.none w0).1.aggregate_events =
            w0.aggregate_events)
    ∧ (∀ n, tenv.nd 101 = PyVal.int n →
        (advance tenv 2 0 3 Option.none w0).2 = ARes.ok
        ∧ (advance tenv 2 0 3 Option.none w0).1.time_events =
            w0.time_events.add 3 101
        ∧ (advance tenv 2 0 3 Option.none w0).1.time_events.subscribed 3 101 =
            true) :=
  claim_c6 tenv 0 3 Option.none w0 2 1
    { state := 1, payload := 0, transitions := 1 } (NextRet.ev 101) 101
    (by decide) (by decide) (by decide)

/-- Claim C10: when the final event of an advancement exposes both
`next_deadline` and `triggered`, `advance` never touches the Flag or
Aggregate tracker, and (with an integer deadline) subscribes the machine to
the Time Tracker: the time capability takes priority in classification. -/
theorem claim_c10 {σ π : Type} (env : Env σ π) (now : Int) (mid : Nat)
    (event : Option Nat) (w : World σ π) (fuel c : Nat)
    (m2 : MachState σ π) (ne : NextRet) (e : Nat)
    (hloop : advanceLoop env now mid event fuel (w.machines mid) =
      (m2, LoopRes.done ne, c))
    (hres : resolveEvent ne event = some e)
    (hnd : env.hasND e = true)
    (htr : env.hasTr e = true) :
    (advance env fuel now mid event w).1.flag_events = w.flag_events
    ∧ (advance env fuel now mid event w).1.aggregate_events =
        w.aggregate_events
    ∧ (∀ n, env.nd e = PyVal.int n →
        (advance env fuel now mid event w).2 = ARes.ok
        ∧ (advance env fuel now mid event w).1.time_events.subscribed mid e =
            true) := by
  have hadv := advance_eq_applyClass hloop
  rw [hres] at hadv
  rcases hx : env.nd e with n | _
  · rw [hadv, classify_to_time hnd hx]
    exact ⟨rfl, rfl, fun n2 hn2 => ⟨rfl, subscribed_add _ _ _⟩⟩
  · rw [hadv, classify_to_bad hnd hx]
    refine ⟨rfl, rfl, fun n2 hn2 => ?_⟩
    cases hn2

/-- Witness for C10: machine 4 subscribes to object 104, which has both
`next_deadline` and `triggered`; it lands in the Time Tracker only. -/
theorem claim_c10_witness :
    (advance tenv 2 0 4 Option.none w0).1.flag_events = w0.flag_events
    ∧ (advance tenv 2 0 4 Option.none w0).1.aggregate_events =
        w0.aggregate_events
    ∧ (∀ n, tenv.nd 104 = PyVal.int n →
        (advance tenv 2 0 4 Option.none w0).2 = ARes.ok
        ∧ (advance tenv 2 0 4 Option.none w0).1.time_events.subscribed 4 104 =
            true) :=
  claim_c10 tenv 0 4 Option.none w0 2 1
    { state := 1, payload := 0, transitions := 1 } (NextRet.ev 104) 104
    (by decide) (by decide) (by decide) (by decide)

/-- Claim C9: within one firing of a time event (one successful run of the
fired-event branch of the run loop), every direct subscriber of the fired
event is advanced before any cascade action happens, the cascade consists
only of machine advancements and completes before the registration and
deregistration commits, and the per-iteration hooks run last. -/
theorem claim_c9 {σ π : Type} (env : Env σ π) (fuel cfuel : Nat) (now : Int)
    (fired nhooks : Nat) (w w2 : World σ π) (L : List Act) (dsubs : List Nat)
    (hsubs : lookupE w.time_events.events fired = some dsubs)
    (hrun : fireBody env fuel cfuel now fired nhooks w = (w2, FRes.ok, L)) :
    ∃ clog alog,
      L = dsubs.map Act.advanced ++ clog ++ (Act.commit_adds :: alog) ++
        (Act.commit_deletes :: (List.range nhooks).map Act.hook)
      ∧ (∀ a ∈ clog, ∃ mid, a = Act.advanced mid)
      ∧ (∀ a ∈ alog, ∃ mid, a = Act.advanced mid) := by
  rcases h1 : process_event env fuel now TSel.time fired w with ⟨w1, r1, log1⟩
  cases r1 with
  | ok tm =>
      simp only [fireBody, h1] at hrun
      rcases h2 : cascade env fuel now cfuel tm w1 with ⟨wc, rc, log2⟩
      cases rc with
      | ok =>
          simp only [h2] at hrun
          rcases h3 : do_adds env fuel now wc with ⟨wa, ra, log3⟩
          cases ra with
          | ok =>
              simp only [h3, Prod.mk.injEq] at hrun
              obtain ⟨hw, htriv, hL⟩ := hrun
              have hlog1 : log1 = dsubs.map Act.advanced := by
                simp only [process_event, Tracker.dequeue, World.getT,
                  hsubs] at h1
                exact processMachines_ok_log env fuel now fired dsubs _ w1
                  tm log1 h1
              refine ⟨log2, log3, ?_, ?_, ?_⟩
              · rw [← hL, hlog1]
              · intro a ha
                exact cascade_log_advanced env fuel now cfuel tm w1 a
                  (by rw [h2]; exact ha)
              · intro a ha
                exact do_adds_log_advanced env fuel now wc a
                  (by rw [h3]; exact ha)
          | exc msg => simp [h3] at hrun
          | fuelOut => simp [h3] at hrun
          | keyError => simp [h3] at hrun
      | exc msg => simp [h2] at hrun
      | fuelOut => simp [h2] at hrun
      | keyError => simp [h2] at hrun
  | exc msg => simp [fireBody, h1] at hrun
  | fuelOut => simp [fireBody, h1] at hrun
  | keyError => simp [fireBody, h1] at hrun

/-- Witness for C9: time event 100 fires with subscriber 6, no cascade, no
pending registrations, two hooks. -/
theorem claim_c9_witness :
    ∃ clog alog,
      (fireBody tenv 3 2 0 100 2 wCex).2.2 =
        ([6] : List Nat).map Act.advanced ++ clog ++
          (Act.commit_adds :: alog) ++
          (Act.commit_deletes :: (List.range 2).map Act.hook)
      ∧ (∀ a ∈ clog, ∃ mid, a = Act.advanced mid)
      ∧ (∀ a ∈ alog, ∃ mid, a = Act.advanced mid) :=
  claim_c9 tenv 3 2 0 100 2 wCex (fireBody tenv 3 2 0 100 2 wCex).1
    (fireBody tenv 3 2 0 100 2 wCex).2.2 [6] (by decide) rfl

/-- Claim C8: a `OneShot(now, period)` reports the constant deadline
`now + period` across any sequence of `happend` calls, and `happend`
always returns true. -/
theorem claim_c8 (now period : Int) (nows : List Int) :
    (oneShotRun (OneShot.init now period) nows).next_deadline = now + period
    ∧ (∀ (o : OneShot) (t : Int), (o.happend t).2 = true) := by
  constructor
  · have h : ∀ (l : List Int) (o : OneShot), oneShotRun o l = o := by
      intro l
      induction l with
      | nil => intro o; rfl
      | cons n rest ih => intro o; exact ih o
    rw [h]
    rfl
  · intro o t
    rfl

end SM
